import Mathlib

/-!
# Verification of the `simple-path-match` pattern/path matching engine

This file gives a shallow embedding, in Lean 4, of the core of the
`simple-path-match` library (`src/lib.rs`): the tokenizer
(`StringComponentIter`), the normalizer (`normalized`), the pattern
compiler (`path_to_pattern`), the match trie (`PathMatchNode`) with its
insertion, depth-bound recomputation and work-list matcher, and the public
`PathMatch` / `PathMatchBuilder` API.  Theorems about the embedded
definitions settle the specification claims.

Modelling conventions:
* Rust `usize` is modelled as `Nat`; `usize::MAX` is the constant
  `USIZE_MAX = 2 ^ 64 - 1`.  No reachable computation overflows `usize`
  (depth bounds of inserted tries stay far below the sentinel), so plain
  `Nat` arithmetic agrees with the source.
* Rust `str::split` is modelled by `rustSplit`, a fuel-based split on the
  character list of the string (fuel `length + 1` always suffices, since
  every step consumes at least one character for a nonempty separator).
  `str::starts_with` / `str::ends_with` are modelled by character-list
  prefix/suffix tests.
* `BTreeMap` is modelled by an association list with unique keys.  The code
  only ever performs keyed lookup (`get`, `entry().or_default()`) and
  order-insensitive iteration (folds for depth bounds, existential search
  in the matcher), so the key order of `BTreeMap` is unobservable here.
* The `VecDeque` work-list of `PathMatchNode::matches` returns `true` iff
  some explored candidate `(node, remaining)` reaches a success condition;
  it is modelled by direct recursion with disjunction over the children a
  candidate pushes, which denotes the same boolean.
* The `panic!` branch of `normalized` is modelled by `Option`: the
  normalizer returns `none` exactly when the Rust code would panic.
-/

namespace SimplePathMatch

/-- Models Rust `str::split` on character lists: `splitChars sep fuel s`
splits `s` on non-overlapping occurrences of `sep`, scanning left to right.
The fuel argument only serves termination; `s.length + 1` is always enough
fuel when `sep` is nonempty, because each step consumes at least one
character. -/
def splitChars (sep : List Char) : Nat → List Char → List (List Char)
  | 0, s => [s]
  | fuel + 1, s =>
    match s with
    | [] => [[]]
    | c :: rest =>
      if sep.isPrefixOf (c :: rest) then
        [] :: splitChars sep fuel ((c :: rest).drop sep.length)
      else
        match splitChars sep fuel rest with
        | [] => [[c]]
        | piece :: more => (c :: piece) :: more

/-- Models Rust `str::split` for a nonempty separator string: the list of
slices between non-overlapping occurrences of `sep`, including empty
slices (so `"a//b"` on `"/"` gives `["a", "", "b"]` and `""` gives
`[""]`). -/
def rustSplit (s sep : String) : List String :=
  (splitChars sep.data (s.data.length + 1) s.data).map (fun l => String.mk l)

/-- Models Rust `str::starts_with` via character lists. -/
def strStartsWith (s pre : String) : Bool :=
  pre.data.isPrefixOf s.data

/-- Models Rust `str::ends_with` via character lists. -/
def strEndsWith (s suf : String) : Bool :=
  suf.data.isSuffixOf s.data

/-- `const PATH_CURRENT: &str = "."`. -/
def PATH_CURRENT : String := "."

/-- `const PATH_PARENT: &str = ".."`. -/
def PATH_PARENT : String := ".."

/-- `const UNIX_SEP: &str = "/"`. -/
def UNIX_SEP : String := "/"

/-- `const WILDCARD_ANY: &str = "*"`. -/
def WILDCARD_ANY : String := "*"

/-- `usize::MAX` for the 64-bit targets the crate builds on. -/
def USIZE_MAX : Nat := 2 ^ 64 - 1

/-- `enum PathComponent` from `src/lib.rs`. -/
inductive PathComponent where
  | Current
  | DirectoryMarker
  | Name (s : String)
  | Parent
  | RootName (s : String)
deriving DecidableEq, Repr

/-- `PathComponent::traversal_depth`. -/
def PathComponent.traversal_depth : PathComponent → Nat
  | .Current | .DirectoryMarker => 0
  | .Name _ | .RootName _ | .Parent => 1

/-- Whether a component is a `Name(_)` (used to state that wildcards are
only ever tested against `Name` components). -/
def PathComponent.isName : PathComponent → Bool
  | .Name _ => true
  | _ => false

/-- `struct StartsEndsWith(String, String)`: the prefix (field `s0`) and
suffix (field `s1`) around the single wildcard of a pattern component. -/
structure StartsEndsWith where
  s0 : String
  s1 : String
deriving DecidableEq, Repr

/-- `StartsEndsWith::matches`: `name.starts_with(&self.0) && name.ends_with(&self.1)`. -/
def StartsEndsWith.matches (m : StartsEndsWith) (name : String) : Bool :=
  strStartsWith name m.s0 && strEndsWith name m.s1

/-- `enum PatternComponent`. -/
inductive PatternComponent where
  | Literal (c : PathComponent)
  | StartsEndsWith (m : SimplePathMatch.StartsEndsWith)
deriving DecidableEq, Repr

/-- `enum Error`: the two pattern-compilation errors. -/
inductive Error where
  | NoParents
  | WildcardPosition (component : String)
deriving DecidableEq, Repr

/-- The tokenizer `StringComponentIter`, fully consumed into a list.
`first` tracks whether the next slice is the one at index 0; `is_dir` is
the `is_dir` flag (reset at the top of every loop iteration, set by an
empty non-first slice, and emitting a trailing `DirectoryMarker` when the
slices run out while it is set). -/
def tokenizeSlices : Bool → Bool → List String → List PathComponent
  | _, is_dir, [] => if is_dir then [.DirectoryMarker] else []
  | first, _, s :: rest =>
    if s = "" then
      if first then .RootName s :: tokenizeSlices false false rest
      else tokenizeSlices false true rest
    else if s = PATH_CURRENT then .Current :: tokenizeSlices false false rest
    else if s = PATH_PARENT then .Parent :: tokenizeSlices false false rest
    else .Name s :: tokenizeSlices false false rest

/-- `StringComponentIter::new(path, separator)` consumed into a list:
split the path on the separator and tokenize the slices. -/
def stringComponents (path separator : String) : List PathComponent :=
  tokenizeSlices true false (rustSplit path separator)

/-- The loop of `fn normalized`, with the accumulated `result` kept in
reverse order (`acc.head?` is Rust's `result.last()`).  Returns `none`
exactly on the `panic!` branch (a `Parent` arriving while the last
appended component is `Current` or `DirectoryMarker`). -/
def normalizedAcc : List PathComponent → List PathComponent → Option (List PathComponent)
  | acc, [] => some acc
  | acc, c :: rest =>
    match c with
    | .Name _ | .RootName _ => normalizedAcc (c :: acc) rest
    | .DirectoryMarker =>
      normalizedAcc (.DirectoryMarker :: (if acc.isEmpty then [.Current] else acc)) rest
    | .Parent =>
      match acc with
      | [] => normalizedAcc [.Parent] rest
      | .Parent :: _ => normalizedAcc (.Parent :: acc) rest
      | .Name _ :: acc2 => normalizedAcc acc2 rest
      | .RootName _ :: _ => normalizedAcc acc rest
      | _ :: _ => none
    | .Current => normalizedAcc acc rest

/-- `fn normalized`: fold the components, then turn an empty result into
`[Current]`.  `none` models the (unreachable) panic. -/
def normalized (components : List PathComponent) : Option (List PathComponent) :=
  (normalizedAcc [] components).map
    (fun acc => if acc.isEmpty then [.Current] else acc.reverse)

/-- The loop of `fn path_to_pattern`, with the accumulated `result` kept
in reverse order.  For a `Name`, `rustSplit name "*"` models
`name.find('*')` followed by `split_at` and the second-wildcard check:
one part means no wildcard (a literal), two parts are the text before and
after the unique wildcard, three or more parts mean at least two
wildcards (the `WildcardPosition` error). -/
def pathToPatternAcc : List PatternComponent → List PathComponent → Except Error (List PatternComponent)
  | acc, [] => .ok acc
  | acc, c :: rest =>
    match c with
    | .Name name =>
      match rustSplit name WILDCARD_ANY with
      | [_] => pathToPatternAcc (.Literal c :: acc) rest
      | [s0, s1] => pathToPatternAcc (.StartsEndsWith ⟨s0, s1⟩ :: acc) rest
      | _ => .error (.WildcardPosition name)
    | .Parent => .error .NoParents
    | .Current => pathToPatternAcc acc rest
    | .DirectoryMarker =>
      pathToPatternAcc (.Literal .DirectoryMarker :: (if acc.isEmpty then [.Literal .Current] else acc)) rest
    | .RootName _ => pathToPatternAcc (.Literal c :: acc) rest

/-- `fn path_to_pattern`: compile tokenized pattern components into match
components, turning an empty result into `[Literal(Current)]`. -/
def path_to_pattern (components : List PathComponent) : Except Error (List PatternComponent) :=
  (pathToPatternAcc [] components).map
    (fun acc => if acc.isEmpty then [.Literal .Current] else acc.reverse)

/-- `struct PathMatchNode`: the match trie node.  The two `BTreeMap`s are
modelled as association lists with unique keys (only keyed lookup and
order-insensitive iteration are ever performed on them). -/
structure PathMatchNode where
  can_end : Bool
  literals : List (PathComponent × PathMatchNode)
  starts_ends_with : List (StartsEndsWith × PathMatchNode)
  min_traversals : Nat
  max_traversals : Nat

/-- `impl Default for PathMatchNode`. -/
def PathMatchNode.mkDefault : PathMatchNode :=
  ⟨false, [], [], 0, USIZE_MAX⟩

/-- `BTreeMap::get` on the literals map. -/
def lookupLit : List (PathComponent × PathMatchNode) → PathComponent → Option PathMatchNode
  | [], _ => none
  | (k, v) :: rest, c => if c = k then some v else lookupLit rest c

/-- `BTreeMap::entry(k).or_insert(v)`-style update on the literals map:
replace the binding of `k` if present, else add one. -/
def setLit : List (PathComponent × PathMatchNode) → PathComponent → PathMatchNode → List (PathComponent × PathMatchNode)
  | [], c, n => [(c, n)]
  | (k, v) :: rest, c, n => if c = k then (k, n) :: rest else (k, v) :: setLit rest c n

/-- `BTreeMap::get` on the wildcard map. -/
def lookupSew : List (StartsEndsWith × PathMatchNode) → StartsEndsWith → Option PathMatchNode
  | [], _ => none
  | (k, v) :: rest, c => if c = k then some v else lookupSew rest c

/-- `BTreeMap::entry(k).or_insert(v)`-style update on the wildcard map. -/
def setSew : List (StartsEndsWith × PathMatchNode) → StartsEndsWith → PathMatchNode → List (StartsEndsWith × PathMatchNode)
  | [], c, n => [(c, n)]
  | (k, v) :: rest, c, n => if c = k then (k, n) :: rest else (k, v) :: setSew rest c n

/-- `PathMatchNode::insert`: walk the pattern component list from this
node, resetting the cached depth bounds of each visited node
(`insert_component` sets `min_traversals = 0`, `max_traversals = usize::MAX`)
and following or creating one child per component
(`entry().or_default()`), then mark the final node with `can_end = true`. -/
def PathMatchNode.insert (node : PathMatchNode) : List PatternComponent → PathMatchNode
  | [] => { node with can_end := true }
  | pc :: rest =>
    let node := { node with min_traversals := 0, max_traversals := USIZE_MAX }
    match pc with
    | .Literal l =>
      let child := (lookupLit node.literals l).getD PathMatchNode.mkDefault
      { node with literals := setLit node.literals l (child.insert rest) }
    | .StartsEndsWith w =>
      let child := (lookupSew node.starts_ends_with w).getD PathMatchNode.mkDefault
      { node with starts_ends_with := setSew node.starts_ends_with w (child.insert rest) }

mutual
/-- `PathMatchNode::recompute_depth_bounds`: recompute `min_traversals` /
`max_traversals` bottom-up.  `min` starts at `0` if the node can end, else
`usize::MAX`; `max` starts at `0`; every child edge contributes its
component's traversal depth (literal keys their `traversal_depth`,
wildcard keys `1`) added to the child's recomputed bound.  Returns the
updated node together with its `(min, max)` pair. -/
def PathMatchNode.recompute_depth_bounds : PathMatchNode → PathMatchNode × Nat × Nat
  | ⟨can_end, lits, sews, _, _⟩ =>
    let lits2 := recomputeLits lits
    let sews2 := recomputeSews sews
    let mn :=
      sews2.foldl (fun a q => Nat.min a (q.2.2.1 + 1))
        (lits2.foldl (fun a q => Nat.min a (q.2.2.1 + q.1.traversal_depth))
          (if can_end then 0 else USIZE_MAX))
    let mx :=
      sews2.foldl (fun a q => Nat.max a (q.2.2.2 + 1))
        (lits2.foldl (fun a q => Nat.max a (q.2.2.2 + q.1.traversal_depth)) 0)
    ⟨⟨can_end, lits2.map (fun q => (q.1, q.2.1)), sews2.map (fun q => (q.1, q.2.1)), mn, mx⟩, mn, mx⟩

/-- Recursion of `recompute_depth_bounds` into the literal children. -/
def recomputeLits : List (PathComponent × PathMatchNode) → List (PathComponent × (PathMatchNode × Nat × Nat))
  | [] => []
  | (k, v) :: rest => (k, v.recompute_depth_bounds) :: recomputeLits rest

/-- Recursion of `recompute_depth_bounds` into the wildcard children. -/
def recomputeSews : List (StartsEndsWith × PathMatchNode) → List (StartsEndsWith × (PathMatchNode × Nat × Nat))
  | [] => []
  | (k, v) :: rest => (k, v.recompute_depth_bounds) :: recomputeSews rest
end

/-- The processing of one popped `(node, remaining)` candidate of the
`PathMatchNode::matches` work-list, where `remaining` has already had a
leading `Current` stripped (which prefix mode does to every popped
candidate).  The three disjuncts are, in the source's order: the
"`remaining` is exactly one `DirectoryMarker` and acceptable" success,
the literal-map child, and the wildcard children (tested against `Name`
components only).  A child candidate is stripped of a leading `Current`
(prefix mode only) before being processed, exactly as the loop does when
it pops that candidate. -/
def goMatch (node : PathMatchNode) (pfx : Bool) : List PathComponent → Bool
  | [] => node.can_end || pfx
  | c :: rest =>
    ((node.can_end || pfx) && rest.isEmpty && decide (c = .DirectoryMarker))
    || (match lookupLit node.literals c with
        | some child =>
          (match rest with
           | .Current :: rest2 =>
             if pfx then goMatch child pfx rest2 else goMatch child pfx (.Current :: rest2)
           | [] => goMatch child pfx []
           | c2 :: rest2 => goMatch child pfx (c2 :: rest2))
        | none => false)
    || node.starts_ends_with.any (fun q =>
        (match c with
         | .Name nm => q.1.matches nm
         | _ => false)
        && (match rest with
            | .Current :: rest2 =>
              if pfx then goMatch q.2 pfx rest2 else goMatch q.2 pfx (.Current :: rest2)
            | [] => goMatch q.2 pfx []
            | c2 :: rest2 => goMatch q.2 pfx (c2 :: rest2)))

/-- `PathMatchNode::matches(node, path, match_prefix)`: seed the work-list
with `(node, path)`; the seed candidate, like every popped candidate, has
a leading `Current` stripped in prefix mode before processing. -/
def PathMatchNode.matches (node : PathMatchNode) (path : List PathComponent) (pfx : Bool) : Bool :=
  match path, pfx with
  | .Current :: rest, true => goMatch node true rest
  | _, _ => goMatch node pfx path

/-- `struct PathMatch`. -/
structure PathMatch where
  separator : String
  match_tree : PathMatchNode

/-- `PathMatch::from_pattern`: tokenize the pattern on the canonical
forward slash (never on the runtime separator), compile it, insert it into
a fresh trie, recompute the depth bounds, and pair the trie with the
runtime separator. -/
def from_pattern (pattern separator : String) : Except Error PathMatch :=
  match path_to_pattern (stringComponents pattern UNIX_SEP) with
  | .error e => .error e
  | .ok pat =>
    let match_tree := PathMatchNode.mkDefault.insert pat
    let match_tree := match_tree.recompute_depth_bounds.1
    .ok ⟨separator, match_tree⟩

/-- `PathMatch::matches_common`: tokenize the candidate path on the
runtime separator, normalize, and run the trie matcher.  The `none`
branch is the normalizer's panic, proved unreachable for tokenizer output
(theorem `C9_normalizer_total`); `false` is a placeholder on that dead
branch. -/
def matches_common (m : PathMatch) (path : String) (pfx : Bool) : Bool :=
  match normalized (stringComponents path m.separator) with
  | some comps => m.match_tree.matches comps pfx
  | none => false

/-- `PathMatch::matches`. -/
def PathMatch.matches (m : PathMatch) (path : String) : Bool :=
  matches_common m path false

/-- `PathMatch::matches_prefix`. -/
def matches_prefix (m : PathMatch) (path : String) : Bool :=
  matches_common m path true

/-- `PathMatch::max_depth`. -/
def PathMatch.max_depth (m : PathMatch) : Nat :=
  m.match_tree.max_traversals

/-- `struct PathMatchBuilder`. -/
structure PathMatchBuilder where
  processed : List (List PatternComponent)
  separator : String

/-- `PathMatchBuilder::new`. -/
def PathMatchBuilder.new (separator : String) : PathMatchBuilder :=
  ⟨[], separator⟩

/-- `PathMatchBuilder::add_pattern`: compile the pattern (tokenized on the
forward slash) and append it to the accumulated list; errors surface
without touching the accumulated patterns. -/
def add_pattern (b : PathMatchBuilder) (pattern : String) : Except Error PathMatchBuilder :=
  match path_to_pattern (stringComponents pattern UNIX_SEP) with
  | .error e => .error e
  | .ok processed => .ok ⟨b.processed ++ [processed], b.separator⟩

/-- `PathMatchBuilder::build`: insert every accumulated pattern into one
fresh trie, recompute bounds once, and return the matcher. -/
def PathMatchBuilder.build (b : PathMatchBuilder) : Except Error PathMatch :=
  let match_tree := b.processed.foldl (fun t pat => t.insert pat) PathMatchNode.mkDefault
  let match_tree := match_tree.recompute_depth_bounds.1
  .ok ⟨b.separator, match_tree⟩

/-- Convenience total accessor: the matcher built by `from_pattern` when
compilation succeeds (an arbitrary placeholder otherwise; every use is
paired with a proof that compilation succeeds). -/
def fp! (pattern separator : String) : PathMatch :=
  match from_pattern pattern separator with
  | .ok m => m
  | .error _ => ⟨separator, PathMatchNode.mkDefault⟩

/-- The matcher built by a `PathMatchBuilder` with zero added patterns and
separator `"/"`. -/
def emptyMatcher : PathMatch :=
  match (PathMatchBuilder.new "/").build with
  | .ok m => m
  | .error _ => ⟨"/", PathMatchNode.mkDefault⟩

/-! ## Helper lemmas about the matcher -/

/-- In full-match mode the seed candidate is never stripped, so the
work-list matcher is `goMatch` directly. -/
theorem PathMatchNode.matches_false_eq (node : PathMatchNode) (path : List PathComponent) :
    node.matches path false = goMatch node false path := by
  cases path with
  | nil => rfl
  | cons c rest => cases c <;> rfl

/-- In prefix mode a seed candidate that does not begin with `Current` is
not stripped. -/
theorem PathMatchNode.matches_true_eq (node : PathMatchNode) (c : PathComponent)
    (rest : List PathComponent) (h : c ≠ .Current) :
    node.matches (c :: rest) true = goMatch node true (c :: rest) := by
  cases c with
  | Current => exact absurd rfl h
  | _ => rfl

/-- In prefix mode a seed candidate beginning with `Current` is stripped. -/
theorem PathMatchNode.matches_true_current (node : PathMatchNode) (rest : List PathComponent) :
    node.matches (.Current :: rest) true = goMatch node true rest := rfl

/-- The wildcard-entry test the matcher applies to the head component: a
wildcard is tested only against `Name` components. -/
def wildTest (c : PathComponent) (w : StartsEndsWith) : Bool :=
  match c with
  | .Name nm => w.matches nm
  | _ => false

/-- Unfolding `goMatch` on a cons in full-match mode: the stripping of the
child candidate never fires, so every branch passes `rest` unchanged. -/
theorem goMatch_cons_false (n : PathMatchNode) (c : PathComponent) (rest : List PathComponent) :
    goMatch n false (c :: rest) =
      ((n.can_end && rest.isEmpty && decide (c = .DirectoryMarker))
      || (match lookupLit n.literals c with
          | some child => goMatch child false rest
          | none => false)
      || n.starts_ends_with.any (fun q =>
          wildTest c q.1 && goMatch q.2 false rest)) := by
  rw [goMatch]
  cases rest with
  | nil => simp <;> rfl
  | cons c2 r2 => cases c2 <;> (simp <;> rfl)

/-- Unfolding `goMatch` on a cons in prefix mode when the tail does not
begin with `Current` (so no child candidate is stripped). -/
theorem goMatch_cons_true (n : PathMatchNode) (c : PathComponent) (rest : List PathComponent)
    (h : rest.head? ≠ some .Current) :
    goMatch n true (c :: rest) =
      ((rest.isEmpty && decide (c = .DirectoryMarker))
      || (match lookupLit n.literals c with
          | some child => goMatch child true rest
          | none => false)
      || n.starts_ends_with.any (fun q =>
          wildTest c q.1 && goMatch q.2 true rest)) := by
  rw [goMatch]
  cases rest with
  | nil => simp <;> rfl
  | cons c2 r2 =>
    cases c2 with
    | Current => simp at h
    | _ => simp <;> rfl

/-- Unfolding `goMatch` on a cons in prefix mode when the tail begins with
`Current`: every child candidate is stripped of that `Current` when it is
processed. -/
theorem goMatch_cons_current (n : PathMatchNode) (c : PathComponent) (r2 : List PathComponent) :
    goMatch n true (c :: .Current :: r2) =
      ((match lookupLit n.literals c with
        | some child => goMatch child true r2
        | none => false)
      || n.starts_ends_with.any (fun q =>
          wildTest c q.1 && goMatch q.2 true r2)) := by
  rw [goMatch]
  simp <;> rfl

/-- The trie of a builder with zero patterns: the default node with
recomputed bounds. -/
theorem emptyMatcher_tree :
    emptyMatcher.match_tree = ⟨false, [], [], USIZE_MAX, 0⟩ := rfl

/-- A node with no children and `can_end = false` matches nothing in
full-match mode. -/
theorem goMatch_childless_false (comps : List PathComponent) :
    goMatch ⟨false, [], [], USIZE_MAX, 0⟩ false comps = false := by
  cases comps with
  | nil => rfl
  | cons c rest => simp [goMatch_cons_false, lookupLit]

/-! ## Claim theorems (part 1: concrete and structural claims) -/

/-- C2: for the matcher compiled from pattern `hello/there/friend` with
separator `/`, `matches_prefix "hello/there"` is true, `matches
"hello/there"` is false, and `matches "hello/there/friend"` is true —
prefix matching accepts at any reachable trie node while full matching
requires a terminal node. -/
theorem C2_hello_there_friend :
    (from_pattern "hello/there/friend" "/").isOk = true
    ∧ matches_prefix (fp! "hello/there/friend" "/") "hello/there" = true
    ∧ PathMatch.matches (fp! "hello/there/friend" "/") "hello/there" = false
    ∧ PathMatch.matches (fp! "hello/there/friend" "/") "hello/there/friend" = true := by
  decide

/-- C4: `max_depth` values computed by the depth-bound recurrence of
`recompute_depth_bounds` (0 per `Current`/`DirectoryMarker` edge, 1 per
`Name`/`RootName`/`Parent`/wildcard edge, leaf max 0): 3 for pattern
`*/*/*`, 0 for pattern `.`, and 1 for pattern `./hello/`, all with
separator `/`. -/
theorem C4_max_depth_values :
    (from_pattern "*/*/*" "/").isOk = true
    ∧ (from_pattern "." "/").isOk = true
    ∧ (from_pattern "./hello/" "/").isOk = true
    ∧ PathMatch.max_depth (fp! "*/*/*" "/") = 3
    ∧ PathMatch.max_depth (fp! "." "/") = 0
    ∧ PathMatch.max_depth (fp! "./hello/" "/") = 1 := by
  decide

/-- C6: a `PathMatchBuilder` on which `add_pattern` was never called
builds a `PathMatch` whose `matches` returns false for every path string;
in particular it matches neither `"non_empty"`, `""`, nor `"/"`. -/
theorem C6_empty_builder_matches_nothing :
    (∀ path : String, PathMatch.matches emptyMatcher path = false)
    ∧ PathMatch.matches emptyMatcher "non_empty" = false
    ∧ PathMatch.matches emptyMatcher "" = false
    ∧ PathMatch.matches emptyMatcher "/" = false := by
  refine ⟨fun path => ?_, by decide, by decide, by decide⟩
  show matches_common emptyMatcher path false = false
  unfold matches_common
  cases h : normalized (stringComponents path emptyMatcher.separator) with
  | none => rfl
  | some comps =>
    simp only [PathMatchNode.matches_false_eq, emptyMatcher_tree, goMatch_childless_false]

/-- C7: the pattern is always tokenized on the forward slash regardless of
the runtime separator: `from_pattern p s` succeeds or fails exactly like
`from_pattern p "/"` and builds the identical match trie, differing only
in the stored separator; and the runtime separator enters matching only
through the splitting of the candidate path, so two candidate paths that
split identically under their respective separators match identically. -/
theorem C7_pattern_split_fixed (p s : String) (t : PathMatchNode)
    (path1 path2 s1 s2 : String) (pfx : Bool)
    (h : rustSplit path1 s1 = rustSplit path2 s2) :
    from_pattern p s = (from_pattern p "/").map (fun m => ⟨s, m.match_tree⟩)
    ∧ matches_common ⟨s1, t⟩ path1 pfx = matches_common ⟨s2, t⟩ path2 pfx := by
  constructor
  · unfold from_pattern
    cases hp : path_to_pattern (stringComponents p UNIX_SEP) <;> simp [Except.map]
  · unfold matches_common stringComponents
    rw [h]

/-- Closed witness for `C7_pattern_split_fixed`: instantiated at the
pattern `a/b` with runtime separator `\`, and at candidate paths `x/y`
(separator `/`) and `x\y` (separator `\`), which split identically. -/
theorem C7_witness :
    from_pattern "a/b" "\\" = (from_pattern "a/b" "/").map (fun m => ⟨"\\", m.match_tree⟩)
    ∧ matches_common ⟨"/", PathMatchNode.mkDefault⟩ "x/y" false
      = matches_common ⟨"\\", PathMatchNode.mkDefault⟩ "x\\y" false :=
  C7_pattern_split_fixed "a/b" "\\" PathMatchNode.mkDefault "x/y" "x\\y" "/" "\\" false (by decide)

/-- C8: the wildcard component `a*b` (prefix `a`, suffix `b`) matches the
names `aXXb` and `ab` but neither `a` nor `b`, never spans a separator
(`a/b` does not match), and wildcard entries are never tested against
non-`Name` components: for a non-`Name` head the matcher behaves as if the
node had no wildcard children at all. -/
theorem C8_wildcard_semantics (node : PathMatchNode) (pfx : Bool) (c : PathComponent)
    (rest : List PathComponent) (h : c.isName = false) :
    (from_pattern "a*b" "/").isOk = true
    ∧ PathMatch.matches (fp! "a*b" "/") "aXXb" = true
    ∧ PathMatch.matches (fp! "a*b" "/") "ab" = true
    ∧ PathMatch.matches (fp! "a*b" "/") "a" = false
    ∧ PathMatch.matches (fp! "a*b" "/") "b" = false
    ∧ PathMatch.matches (fp! "a*b" "/") "a/b" = false
    ∧ StartsEndsWith.matches ⟨"a", "b"⟩ "aXXb" = true
    ∧ goMatch node pfx (c :: rest)
      = goMatch ⟨node.can_end, node.literals, [], node.min_traversals, node.max_traversals⟩
          pfx (c :: rest) := by
  refine ⟨by decide, by decide, by decide, by decide, by decide, by decide, by decide, ?_⟩
  have henter : ∀ (l : List (StartsEndsWith × PathMatchNode))
      (f : StartsEndsWith × PathMatchNode → Bool),
      (l.any fun q => false && f q) = false := by
    intro l f
    rw [List.any_eq_false]
    intro x _
    simp
  cases pfx with
  | false =>
    rw [goMatch_cons_false, goMatch_cons_false]
    cases c <;> simp_all [PathComponent.isName, wildTest, henter]
  | true =>
    cases rest with
    | nil =>
      rw [goMatch_cons_true _ _ _ (by simp), goMatch_cons_true _ _ _ (by simp)]
      cases c <;> simp_all [PathComponent.isName, wildTest, henter]
    | cons c2 r2 =>
      cases c2 with
      | Current =>
        rw [goMatch_cons_current, goMatch_cons_current]
        cases c <;> simp_all [PathComponent.isName, wildTest, henter]
      | _ =>
        rw [goMatch_cons_true _ _ _ (by simp), goMatch_cons_true _ _ _ (by simp)]
        cases c <;> simp_all [PathComponent.isName, wildTest, henter]

/-- Closed witness for `C8_wildcard_semantics`, instantiated at a
`Parent` head component (not a `Name`) over the default node. -/
theorem C8_witness :
    goMatch PathMatchNode.mkDefault false (.Parent :: [])
      = goMatch ⟨PathMatchNode.mkDefault.can_end, PathMatchNode.mkDefault.literals, [],
          PathMatchNode.mkDefault.min_traversals, PathMatchNode.mkDefault.max_traversals⟩
          false (.Parent :: []) :=
  (C8_wildcard_semantics PathMatchNode.mkDefault false .Parent [] (by decide)).2.2.2.2.2.2.2

/-- C10: the matcher built from a builder with zero patterns (separator
`/`) returns true from `matches_prefix "."` and `matches_prefix "./"`
even though the root's `can_end` flag is false (prefix mode strips the
leading `Current` and accepts at the root), while `matches` rejects every
path. -/
theorem C10_empty_builder_prefix_accepts_current :
    matches_prefix emptyMatcher "." = true
    ∧ matches_prefix emptyMatcher "./" = true
    ∧ emptyMatcher.match_tree.can_end = false
    ∧ (∀ path : String, PathMatch.matches emptyMatcher path = false) := by
  refine ⟨by decide, by decide, by decide, fun path => ?_⟩
  show matches_common emptyMatcher path false = false
  unfold matches_common
  cases h : normalized (stringComponents path emptyMatcher.separator) with
  | none => rfl
  | some comps =>
    simp only [PathMatchNode.matches_false_eq, emptyMatcher_tree, goMatch_childless_false]

/-- C1 counterexample: the pattern `a**/..` contains a `..` component, yet
compilation fails with `WildcardPosition "a**"` rather than `NoParents`,
because errors are reported for the first offending component in token
order; this refutes the claimed "fails with NoParents if and only if the
pattern contains `..`". -/
theorem C1_counterexample :
    from_pattern "a**/.." "/" = .error (.WildcardPosition "a**")
    ∧ .Parent ∈ stringComponents "a**/.." UNIX_SEP := by
  exact ⟨rfl, by decide⟩

/-! ## Normalization rules (C3) and normalizer totality (C9) -/

/-- The spec's description of how the normalizer handles one `Parent`
component, as a function of the accumulated result (most recent component
first, matching `normalizedAcc`'s accumulator): a `Parent` removes an
immediately preceding `Name`, is appended literally when the result is
empty or ends in `Parent`, is dropped silently when the result ends in
`RootName`, and is not specified otherwise (the code's panic, `none`
here).  Stated from the spec's words, for comparison with the code's
`normalizedAcc`. -/
def specParentRule : List PathComponent → Option (List PathComponent)
  | [] => some [.Parent]
  | .Parent :: acc2 => some (.Parent :: .Parent :: acc2)
  | .Name _ :: acc2 => some acc2
  | .RootName s :: acc2 => some (.RootName s :: acc2)
  | _ :: _ => none

/-- Processing a concatenation of component lists is processing the first
list and then the second from the resulting accumulator. -/
theorem normalizedAcc_append (l₁ l₂ : List PathComponent) : ∀ acc,
    normalizedAcc acc (l₁ ++ l₂) = (normalizedAcc acc l₁).bind (fun a => normalizedAcc a l₂) := by
  induction l₁ with
  | nil => intro acc; simp [normalizedAcc]
  | cons c rest ih =>
    intro acc
    cases c with
    | Name s =>
      simp only [List.cons_append, normalizedAcc]
      exact ih _
    | RootName s =>
      simp only [List.cons_append, normalizedAcc]
      exact ih _
    | DirectoryMarker =>
      simp only [List.cons_append, normalizedAcc]
      exact ih _
    | Current =>
      simp only [List.cons_append, normalizedAcc]
      exact ih _
    | Parent =>
      rcases acc with _ | ⟨ac, acc2⟩
      · simp only [List.cons_append, normalizedAcc]
        exact ih _
      · cases ac with
        | Current => simp [normalizedAcc]
        | DirectoryMarker => simp [normalizedAcc]
        | Parent =>
          simp only [List.cons_append, normalizedAcc]
          exact ih _
        | Name s =>
          simp only [List.cons_append, normalizedAcc]
          exact ih _
        | RootName s =>
          simp only [List.cons_append, normalizedAcc]
          exact ih _

/-- C3: normalization of a candidate path's components.  A trailing
`Parent` acts on the accumulated result exactly as the spec's rule
(`specParentRule`) says; a trailing `Current` is dropped; the final result
is the accumulator reversed, or `[Current]` when it is empty; and the
concrete paths `.` and `./` (separator `/`) normalize to `[Current]` and
`[Current, DirectoryMarker]` respectively. -/
theorem C3_normalization_rules (toks a : List PathComponent)
    (h : normalizedAcc [] toks = some a) :
    normalizedAcc [] (toks ++ [.Parent]) = specParentRule a
    ∧ normalizedAcc [] (toks ++ [.Current]) = some a
    ∧ normalized toks = some (if a.isEmpty then [.Current] else a.reverse)
    ∧ normalized (stringComponents "." "/") = some [.Current]
    ∧ normalized (stringComponents "./" "/") = some [.Current, .DirectoryMarker] := by
  refine ⟨?_, ?_, ?_, by decide, by decide⟩
  · rw [normalizedAcc_append, h]
    rcases a with _ | ⟨ac, a2⟩
    · rfl
    · cases ac <;> rfl
  · rw [normalizedAcc_append, h]
    rfl
  · rw [normalized, h]
    rfl

/-- Closed witness for `C3_normalization_rules`, instantiated at the
single-`Name` token list `[Name "x"]`. -/
theorem C3_witness :
    normalizedAcc [] ([.Name "x"] ++ [.Parent]) = specParentRule [.Name "x"]
    ∧ normalizedAcc [] ([.Name "x"] ++ [.Current]) = some [.Name "x"]
    ∧ normalized [.Name "x"] = some (if ([PathComponent.Name "x"]).isEmpty then [.Current] else ([PathComponent.Name "x"]).reverse)
    ∧ normalized (stringComponents "." "/") = some [.Current]
    ∧ normalized (stringComponents "./" "/") = some [.Current, .DirectoryMarker] :=
  C3_normalization_rules [.Name "x"] [.Name "x"] rfl

/-- Every component list produced by the tokenizer has its
`DirectoryMarker` (if any) only in the last position. -/
def markerLastOnly : List PathComponent → Bool
  | [] => true
  | [_] => true
  | c :: rest => decide (c ≠ .DirectoryMarker) && markerLastOnly rest

/-- Extending a marker-last-only list on the left with a non-marker
component keeps it marker-last-only. -/
theorem markerLastOnly_cons (c : PathComponent) (l : List PathComponent)
    (hc : c ≠ .DirectoryMarker) (hl : markerLastOnly l = true) :
    markerLastOnly (c :: l) = true := by
  cases l with
  | nil => rfl
  | cons d rest => simp [markerLastOnly, hc, hl]

/-- The tokenizer only emits a `DirectoryMarker` when the slices run out,
so it can only be the last component. -/
theorem tokenizeSlices_markerLastOnly : ∀ (l : List String) (first d : Bool),
    markerLastOnly (tokenizeSlices first d l) = true := by
  intro l
  induction l with
  | nil =>
    intro first d
    cases d <;> rfl
  | cons s rest ih =>
    intro first d
    by_cases h0 : s = ""
    · by_cases hf : first = true
      · subst hf
        simp only [tokenizeSlices, h0, if_true]
        exact markerLastOnly_cons _ _ (by simp) (ih false false)
      · have hf2 : first = false := by revert hf; cases first <;> simp
        subst hf2
        simp only [tokenizeSlices, h0, if_true, Bool.false_eq_true, if_false]
        exact ih false true
    · by_cases h1 : s = PATH_CURRENT
      · simp only [tokenizeSlices, h0, if_false, h1, if_true]
        exact markerLastOnly_cons _ _ (by simp) (ih false false)
      · by_cases h2 : s = PATH_PARENT
        · simp only [tokenizeSlices, h0, if_false, h1, h2, if_true]
          exact markerLastOnly_cons _ _ (by simp) (ih false false)
        · simp only [tokenizeSlices, h0, if_false, h1, h2]
          exact markerLastOnly_cons _ _ (by simp) (ih false false)

/-- The normalizer loop never panics on a marker-last-only component list,
as long as the accumulator contains no `Current` and no `DirectoryMarker`:
the panic branch requires a `Parent` to arrive with `Current` or
`DirectoryMarker` as the most recently appended component, and the
invariant rules that out until a marker arrives, after which the input is
exhausted. -/
theorem normalizedAcc_isSome : ∀ (l acc : List PathComponent),
    markerLastOnly l = true →
    (∀ c ∈ acc, c ≠ .Current ∧ c ≠ .DirectoryMarker) →
    (normalizedAcc acc l).isSome = true := by
  intro l
  induction l with
  | nil => intro acc _ _; rfl
  | cons c rest ih =>
    intro acc hml hacc
    have hrest : rest = [] ∨ (c ≠ .DirectoryMarker ∧ markerLastOnly rest = true) := by
      cases rest with
      | nil => exact Or.inl rfl
      | cons d r2 =>
        refine Or.inr ?_
        have : (decide (c ≠ .DirectoryMarker) && markerLastOnly (d :: r2)) = true := hml
        constructor
        · have := Bool.and_elim_left this
          simpa using this
        · exact Bool.and_elim_right this
    cases c with
    | Name s =>
      rcases hrest with rfl | ⟨_, hml2⟩
      · rfl
      · refine ih (.Name s :: acc) hml2 ?_
        intro x hx
        rcases List.mem_cons.mp hx with rfl | hx
        · exact ⟨by simp, by simp⟩
        · exact hacc x hx
    | RootName s =>
      rcases hrest with rfl | ⟨_, hml2⟩
      · rfl
      · refine ih (.RootName s :: acc) hml2 ?_
        intro x hx
        rcases List.mem_cons.mp hx with rfl | hx
        · exact ⟨by simp, by simp⟩
        · exact hacc x hx
    | Current =>
      rcases hrest with rfl | ⟨_, hml2⟩
      · rfl
      · exact ih acc hml2 hacc
    | DirectoryMarker =>
      rcases hrest with rfl | ⟨hne, _⟩
      · rfl
      · exact absurd rfl hne
    | Parent =>
      rcases acc with _ | ⟨ac, acc2⟩
      · rcases hrest with rfl | ⟨_, hml2⟩
        · rfl
        · refine ih [.Parent] hml2 ?_
          intro x hx
          rcases List.mem_cons.mp hx with rfl | hx
          · exact ⟨by simp, by simp⟩
          · exact absurd hx (List.not_mem_nil x)
      · have hac := hacc ac (by simp)
        cases ac with
        | Current => exact absurd rfl hac.1
        | DirectoryMarker => exact absurd rfl hac.2
        | Parent =>
          rcases hrest with rfl | ⟨_, hml2⟩
          · rfl
          · refine ih (.Parent :: .Parent :: acc2) hml2 ?_
            intro x hx
            rcases List.mem_cons.mp hx with rfl | hx
            · exact ⟨by simp, by simp⟩
            · exact hacc x hx
        | Name s =>
          rcases hrest with rfl | ⟨_, hml2⟩
          · rfl
          · refine ih acc2 hml2 ?_
            intro x hx
            exact hacc x (List.mem_cons_of_mem _ hx)
        | RootName s =>
          rcases hrest with rfl | ⟨_, hml2⟩
          · rfl
          · exact ih (.RootName s :: acc2) hml2 hacc

/-- C9: for every input string and every separator string, normalizing the
tokenizer's output never reaches the normalizer's panic branch — the
normalization of a tokenized path is total. -/
theorem C9_normalizer_total (path sep : String) :
    (normalized (stringComponents path sep)).isSome = true := by
  have h := normalizedAcc_isSome (stringComponents path sep) []
    (tokenizeSlices_markerLastOnly (rustSplit path sep) true false)
    (by intro c hc; exact absurd hc (List.not_mem_nil c))
  unfold normalized
  cases hn : normalizedAcc [] (stringComponents path sep) with
  | none => rw [hn] at h; exact absurd h (by simp)
  | some a => rfl

/-! ## Compile-error characterization (C1) -/

/-- The number of `*` characters in a string. -/
def countStars (s : String) : Nat := s.data.count '*'

/-- A tokenized pattern component that makes compilation fail: a `Parent`,
or a `Name` containing two or more `*` characters. -/
def offending : PathComponent → Bool
  | .Parent => true
  | .Name nm => decide (2 ≤ countStars nm)
  | _ => false

/-- Splitting on a single-character separator produces one more piece than
there are occurrences of the character, given sufficient fuel. -/
theorem splitChars_singleton_length (ch : Char) : ∀ (s : List Char) (fuel : Nat),
    s.length < fuel → (splitChars [ch] fuel s).length = s.count ch + 1 := by
  intro s
  induction s with
  | nil =>
    intro fuel h
    obtain ⟨f, rfl⟩ : ∃ f, fuel = f + 1 := ⟨fuel - 1, by omega⟩
    simp [splitChars]
  | cons c rest ih =>
    intro fuel h
    obtain ⟨f, rfl⟩ : ∃ f, fuel = f + 1 := ⟨fuel - 1, by omega⟩
    have hf : rest.length < f := by
      simp only [List.length_cons] at h
      omega
    have hpre : List.isPrefixOf [ch] (c :: rest) = (ch == c) := by
      simp [List.isPrefixOf]
    simp only [splitChars, hpre]
    by_cases hc : ch = c
    · subst hc
      rw [if_pos (by simp)]
      have hdrop : (ch :: rest).drop [ch].length = rest := rfl
      rw [hdrop, List.length_cons, ih f hf, List.count_cons]
      simp
    · have hcb : (ch == c) = false := by simpa using hc
      rw [if_neg (by simp [hcb])]
      have hlen := ih f hf
      cases hsp : splitChars [ch] f rest with
      | nil => rw [hsp] at hlen; simp at hlen
      | cons piece more =>
        rw [hsp] at hlen
        simp only [List.length_cons] at hlen
        have hcnt : (c :: rest).count ch = rest.count ch := by
          have hcb2 : (c == ch) = false := by
            simpa using fun hh : c = ch => hc hh.symm
          rw [List.count_cons]
          simp [hcb, hcb2]
        simp only [List.length_cons, hcnt]
        omega

/-- `rustSplit` on the wildcard separator `*` produces `countStars + 1`
pieces. -/
theorem rustSplit_star_length (name : String) :
    (rustSplit name WILDCARD_ANY).length = countStars name + 1 := by
  unfold rustSplit countStars
  rw [List.length_map]
  have hd : WILDCARD_ANY.data = ['*'] := rfl
  rw [hd]
  exact splitChars_singleton_length '*' name.data _ (Nat.lt_succ_self _)

/-- Shifting a first-`Parent` decomposition past a non-offending head
component. -/
theorem parent_decomp_shift (c : PathComponent) (toks : List PathComponent)
    (h : offending c = false) :
    (∃ pre post, c :: toks = pre ++ .Parent :: post ∧ ∀ x ∈ pre, offending x = false) ↔
    (∃ pre post, toks = pre ++ .Parent :: post ∧ ∀ x ∈ pre, offending x = false) := by
  constructor
  · rintro ⟨pre, post, heq, hclean⟩
    cases pre with
    | nil =>
      simp only [List.nil_append, List.cons.injEq] at heq
      rw [heq.1] at h
      simp [offending] at h
    | cons p pre2 =>
      simp only [List.cons_append, List.cons.injEq] at heq
      exact ⟨pre2, post, heq.2, fun x hx => hclean x (List.mem_cons_of_mem _ hx)⟩
  · rintro ⟨pre, post, heq, hclean⟩
    refine ⟨c :: pre, post, by rw [heq]; rfl, ?_⟩
    intro x hx
    rcases List.mem_cons.mp hx with rfl | hx
    · exact h
    · exact hclean x hx

/-- Shifting a first-multi-wildcard decomposition past a non-offending
head component. -/
theorem wild_decomp_shift (c : PathComponent) (t : String) (toks : List PathComponent)
    (h : offending c = false) :
    (∃ pre post, c :: toks = pre ++ .Name t :: post ∧ 2 ≤ countStars t ∧
        ∀ x ∈ pre, offending x = false) ↔
    (∃ pre post, toks = pre ++ .Name t :: post ∧ 2 ≤ countStars t ∧
        ∀ x ∈ pre, offending x = false) := by
  constructor
  · rintro ⟨pre, post, heq, hst, hclean⟩
    cases pre with
    | nil =>
      simp only [List.nil_append, List.cons.injEq] at heq
      rw [heq.1] at h
      simp only [offending, decide_eq_false_iff_not] at h
      exact absurd hst h
    | cons p pre2 =>
      simp only [List.cons_append, List.cons.injEq] at heq
      exact ⟨pre2, post, heq.2, hst, fun x hx => hclean x (List.mem_cons_of_mem _ hx)⟩
  · rintro ⟨pre, post, heq, hst, hclean⟩
    refine ⟨c :: pre, post, by rw [heq]; rfl, hst, ?_⟩
    intro x hx
    rcases List.mem_cons.mp hx with rfl | hx
    · exact h
    · exact hclean x hx

/-- No first-multi-wildcard decomposition exists when the head is a
`Parent`. -/
theorem wild_decomp_head_parent (t : String) (toks : List PathComponent) :
    ¬ (∃ pre post, .Parent :: toks = pre ++ .Name t :: post ∧ 2 ≤ countStars t ∧
        ∀ x ∈ pre, offending x = false) := by
  rintro ⟨pre, post, heq, _, hclean⟩
  cases pre with
  | nil => simp at heq
  | cons p pre2 =>
    simp only [List.cons_append, List.cons.injEq] at heq
    have := hclean p (List.mem_cons_self p pre2)
    rw [← heq.1] at this
    simp [offending] at this

/-- No first-`Parent` decomposition exists when the head is a
multi-wildcard `Name`. -/
theorem parent_decomp_head_wild (nm : String) (toks : List PathComponent)
    (h : 2 ≤ countStars nm) :
    ¬ (∃ pre post, .Name nm :: toks = pre ++ .Parent :: post ∧
        ∀ x ∈ pre, offending x = false) := by
  rintro ⟨pre, post, heq, hclean⟩
  cases pre with
  | nil => simp at heq
  | cons p pre2 =>
    simp only [List.cons_append, List.cons.injEq] at heq
    have := hclean p (List.mem_cons_self p pre2)
    rw [← heq.1] at this
    simp only [offending, decide_eq_false_iff_not] at this
    exact absurd h this

/-- A first-multi-wildcard decomposition with a multi-wildcard `Name` at
the head forces the reported component to be that head. -/
theorem wild_decomp_head_wild (nm t : String) (toks : List PathComponent)
    (h : 2 ≤ countStars nm) :
    (∃ pre post, .Name nm :: toks = pre ++ .Name t :: post ∧ 2 ≤ countStars t ∧
        ∀ x ∈ pre, offending x = false) ↔ t = nm := by
  constructor
  · rintro ⟨pre, post, heq, hst, hclean⟩
    cases pre with
    | nil =>
      simp only [List.nil_append, List.cons.injEq, PathComponent.Name.injEq] at heq
      exact heq.1.symm
    | cons p pre2 =>
      simp only [List.cons_append, List.cons.injEq] at heq
      have := hclean p (List.mem_cons_self p pre2)
      rw [← heq.1] at this
      simp only [offending, decide_eq_false_iff_not] at this
      exact absurd h this
  · rintro rfl
    exact ⟨[], toks, rfl, h, by intro x hx; exact absurd hx (List.not_mem_nil x)⟩

/-- First-error characterization of the pattern-compiler loop, for any
accumulator: it fails with `NoParents` iff the first offending component
is a `Parent`, with `WildcardPosition t` iff the first offending component
is the `Name` `t` with at least two wildcards, and succeeds iff no
component is offending. -/
theorem pathToPatternAcc_error_iff (toks : List PathComponent) : ∀ acc,
    ((pathToPatternAcc acc toks = .error .NoParents) ↔
      ∃ pre post, toks = pre ++ .Parent :: post ∧ ∀ c ∈ pre, offending c = false)
    ∧ (∀ t, (pathToPatternAcc acc toks = .error (.WildcardPosition t)) ↔
      ∃ pre post, toks = pre ++ .Name t :: post ∧ 2 ≤ countStars t ∧
        ∀ c ∈ pre, offending c = false)
    ∧ ((pathToPatternAcc acc toks).isOk = true ↔ ∀ c ∈ toks, offending c = false) := by
  induction toks with
  | nil =>
    intro acc
    refine ⟨?_, fun t => ?_, ?_⟩
    · simp only [pathToPatternAcc]
      constructor
      · intro h; exact absurd h (by simp)
      · rintro ⟨pre, post, heq, -⟩
        cases pre <;> simp at heq
    · simp only [pathToPatternAcc]
      constructor
      · intro h; exact absurd h (by simp)
      · rintro ⟨pre, post, heq, -⟩
        cases pre <;> simp at heq
    · simp [pathToPatternAcc, Except.isOk, Except.toBool]
  | cons c rest ih =>
    intro acc
    have hforall : (∀ x ∈ c :: rest, offending x = false) ↔
        (offending c = false ∧ ∀ x ∈ rest, offending x = false) :=
      List.forall_mem_cons
    cases c with
    | Current =>
      have hoff : offending PathComponent.Current = false := rfl
      have step : pathToPatternAcc acc (.Current :: rest) = pathToPatternAcc acc rest := rfl
      refine ⟨?_, fun t => ?_, ?_⟩
      · rw [step, (ih acc).1, parent_decomp_shift _ _ hoff]
      · rw [step, (ih acc).2.1 t, wild_decomp_shift _ _ _ hoff]
      · rw [step, (ih acc).2.2, hforall]
        simp [hoff]
    | DirectoryMarker =>
      have hoff : offending PathComponent.DirectoryMarker = false := rfl
      have step : pathToPatternAcc acc (.DirectoryMarker :: rest) =
          pathToPatternAcc (.Literal .DirectoryMarker ::
            (if acc.isEmpty then [.Literal .Current] else acc)) rest := rfl
      refine ⟨?_, fun t => ?_, ?_⟩
      · rw [step, (ih _).1, parent_decomp_shift _ _ hoff]
      · rw [step, (ih _).2.1 t, wild_decomp_shift _ _ _ hoff]
      · rw [step, (ih _).2.2, hforall]
        simp [hoff]
    | RootName s =>
      have hoff : offending (PathComponent.RootName s) = false := rfl
      have step : pathToPatternAcc acc (.RootName s :: rest) =
          pathToPatternAcc (.Literal (.RootName s) :: acc) rest := rfl
      refine ⟨?_, fun t => ?_, ?_⟩
      · rw [step, (ih _).1, parent_decomp_shift _ _ hoff]
      · rw [step, (ih _).2.1 t, wild_decomp_shift _ _ _ hoff]
      · rw [step, (ih _).2.2, hforall]
        simp [hoff]
    | Parent =>
      have step : pathToPatternAcc acc (.Parent :: rest) = .error .NoParents := rfl
      refine ⟨?_, fun t => ?_, ?_⟩
      · rw [step]
        constructor
        · intro _
          exact ⟨[], rest, rfl, by intro x hx; exact absurd hx (List.not_mem_nil x)⟩
        · intro _; rfl
      · rw [step]
        constructor
        · intro h
          simp at h
        · intro h
          exact absurd h (wild_decomp_head_parent t rest)
      · rw [step, hforall]
        constructor
        · intro h; simp [Except.isOk, Except.toBool] at h
        · rintro ⟨h, -⟩; simp [offending] at h
    | Name nm =>
      have hlen := rustSplit_star_length nm
      rcases hsp : rustSplit nm WILDCARD_ANY with _ | ⟨a, _ | ⟨b, _ | ⟨d, l⟩⟩⟩
      · rw [hsp] at hlen; simp at hlen
      · have hst : countStars nm = 0 := by rw [hsp] at hlen; simpa using hlen.symm
        have hoff : offending (PathComponent.Name nm) = false := by
          simp [offending, hst]
        have step : pathToPatternAcc acc (.Name nm :: rest) =
            pathToPatternAcc (.Literal (.Name nm) :: acc) rest := by
          simp only [pathToPatternAcc, hsp]
        refine ⟨?_, fun t => ?_, ?_⟩
        · rw [step, (ih _).1, parent_decomp_shift _ _ hoff]
        · rw [step, (ih _).2.1 t, wild_decomp_shift _ _ _ hoff]
        · rw [step, (ih _).2.2, hforall]
          simp [hoff]
      · have hst : countStars nm = 1 := by rw [hsp] at hlen; simpa using hlen.symm
        have hoff : offending (PathComponent.Name nm) = false := by
          simp [offending, hst]
        have step : pathToPatternAcc acc (.Name nm :: rest) =
            pathToPatternAcc (.StartsEndsWith ⟨a, b⟩ :: acc) rest := by
          simp only [pathToPatternAcc, hsp]
        refine ⟨?_, fun t => ?_, ?_⟩
        · rw [step, (ih _).1, parent_decomp_shift _ _ hoff]
        · rw [step, (ih _).2.1 t, wild_decomp_shift _ _ _ hoff]
        · rw [step, (ih _).2.2, hforall]
          simp [hoff]
      · have hst : 2 ≤ countStars nm := by
          rw [hsp] at hlen
          simp only [List.length_cons] at hlen
          omega
        have step : pathToPatternAcc acc (.Name nm :: rest) =
            .error (.WildcardPosition nm) := by
          simp only [pathToPatternAcc, hsp]
        refine ⟨?_, fun t => ?_, ?_⟩
        · rw [step]
          constructor
          · intro h; simp at h
          · intro h
            exact absurd h (parent_decomp_head_wild nm rest hst)
        · rw [step]
          rw [wild_decomp_head_wild nm t rest hst]
          constructor
          · intro h
            simpa using h.symm
          · rintro rfl; rfl
        · rw [step, hforall]
          constructor
          · intro h; simp [Except.isOk, Except.toBool] at h
          · rintro ⟨h, -⟩
            simp only [offending, decide_eq_false_iff_not] at h
            exact absurd hst h

/-- `from_pattern` surfaces exactly the compiler-loop errors. -/
theorem from_pattern_error_iff (p s : String) (e : Error) :
    from_pattern p s = .error e ↔
      pathToPatternAcc [] (stringComponents p UNIX_SEP) = .error e := by
  unfold from_pattern path_to_pattern
  cases h : pathToPatternAcc [] (stringComponents p UNIX_SEP) <;> simp [h, Except.map]

/-- `from_pattern` succeeds exactly when the compiler loop does. -/
theorem from_pattern_isOk_iff (p s : String) :
    (from_pattern p s).isOk = (pathToPatternAcc [] (stringComponents p UNIX_SEP)).isOk := by
  unfold from_pattern path_to_pattern
  cases h : pathToPatternAcc [] (stringComponents p UNIX_SEP) <;>
    simp [h, Except.map, Except.isOk, Except.toBool]

/-- `add_pattern` surfaces exactly the compiler-loop errors. -/
theorem add_pattern_error_iff (b : PathMatchBuilder) (p : String) (e : Error) :
    add_pattern b p = .error e ↔
      pathToPatternAcc [] (stringComponents p UNIX_SEP) = .error e := by
  unfold add_pattern path_to_pattern
  cases h : pathToPatternAcc [] (stringComponents p UNIX_SEP) <;> simp [h, Except.map]

/-- C1 (amended): compilation succeeds iff the tokenized pattern has no
`..` component and no `Name` component with two or more `*` characters;
when it fails, the error reports the first offending component in token
order — `NoParents` iff that component is a `Parent`, and
`WildcardPosition` (carrying the component's text) iff it is a
multi-wildcard `Name`; `from_pattern` and `add_pattern` report the same
error for the same pattern.  (Matching never fails by construction:
`matches` and `matches_prefix` are total boolean functions.) -/
theorem C1_compile_error_first_offense (p s : String) (b : PathMatchBuilder) (e : Error) :
    ((from_pattern p s = .error .NoParents) ↔
      ∃ pre post, stringComponents p UNIX_SEP = pre ++ .Parent :: post ∧
        ∀ c ∈ pre, offending c = false)
    ∧ (∀ t, (from_pattern p s = .error (.WildcardPosition t)) ↔
      ∃ pre post, stringComponents p UNIX_SEP = pre ++ .Name t :: post ∧
        2 ≤ countStars t ∧ ∀ c ∈ pre, offending c = false)
    ∧ ((from_pattern p s).isOk = true ↔
      ∀ c ∈ stringComponents p UNIX_SEP, offending c = false)
    ∧ (add_pattern b p = .error e ↔ from_pattern p s = .error e) := by
  obtain ⟨hA, hB, hOk⟩ := pathToPatternAcc_error_iff (stringComponents p UNIX_SEP) []
  refine ⟨?_, fun t => ?_, ?_, ?_⟩
  · rw [from_pattern_error_iff, hA]
  · rw [from_pattern_error_iff, hB t]
  · rw [from_pattern_isOk_iff, hOk]
  · rw [add_pattern_error_iff, from_pattern_error_iff]

/-! ## Truncation monotonicity of prefix matching (C5) -/

/-- Whether the normalizer appends this component unconditionally
(`Name` and `RootName` survive normalization of parent-free input). -/
def PathComponent.isKept : PathComponent → Bool
  | .Name _ | .RootName _ => true
  | _ => false

/-- The components the tokenizer emits from the slices themselves,
without the trailing `DirectoryMarker` (`first` is the index-0 flag). -/
def bodyOf : Bool → List String → List PathComponent
  | _, [] => []
  | first, s :: rest =>
    if s = "" then
      (if first then [PathComponent.RootName s] else []) ++ bodyOf false rest
    else if s = PATH_CURRENT then .Current :: bodyOf false rest
    else if s = PATH_PARENT then .Parent :: bodyOf false rest
    else .Name s :: bodyOf false rest

/-- The tokenizer's `is_dir` state after consuming all slices: set by a
final empty non-first slice. -/
def endsDir : Bool → Bool → List String → Bool
  | _, d, [] => d
  | first, _, s :: rest => endsDir false (decide (s = "") && !first) rest

/-- The tokenizer's output is its body followed by a `DirectoryMarker`
exactly when the final `is_dir` state is set. -/
theorem tokenizeSlices_eq_body : ∀ (l : List String) (first d : Bool),
    tokenizeSlices first d l =
      bodyOf first l ++ (if endsDir first d l then [.DirectoryMarker] else []) := by
  intro l
  induction l with
  | nil =>
    intro first d
    cases d <;> rfl
  | cons s rest ih =>
    intro first d
    rw [tokenizeSlices, bodyOf, endsDir]
    by_cases h0 : s = ""
    · rw [if_pos h0, if_pos h0]
      cases first with
      | true =>
        have hd : (decide (s = "") && !true) = false := by simp
        rw [hd, ih false false]
        simp
      | false =>
        have hd : (decide (s = "") && !false) = true := by simp [h0]
        rw [hd, ih false true]
        simp
    · rw [if_neg h0, if_neg h0]
      have hd : (decide (s = "") && !first) = false := by simp [h0]
      rw [hd]
      by_cases h1 : s = PATH_CURRENT
      · rw [if_pos h1, if_pos h1, ih false false, List.cons_append]
      · rw [if_neg h1, if_neg h1]
        by_cases h2 : s = PATH_PARENT
        · rw [if_pos h2, if_pos h2, ih false false, List.cons_append]
        · rw [if_neg h2, if_neg h2, ih false false, List.cons_append]

/-- Truncating the slices truncates the body: the body of a slice-list
truncation is a list prefix of the original body. -/
theorem bodyOf_take_isPrefix : ∀ (l : List String) (k : Nat) (first : Bool),
    bodyOf first (l.take k) <+: bodyOf first l := by
  intro l
  induction l with
  | nil =>
    intro k first
    simp
  | cons s rest ih =>
    intro k first
    cases k with
    | zero => simp [bodyOf]
    | succ k2 =>
      rw [List.take_succ_cons]
      obtain ⟨t, ht⟩ := ih k2 false
      rw [bodyOf, bodyOf]
      by_cases h0 : s = ""
      · rw [if_pos h0, if_pos h0]
        exact ⟨t, by rw [List.append_assoc, ht]⟩
      · rw [if_neg h0, if_neg h0]
        by_cases h1 : s = PATH_CURRENT
        · rw [if_pos h1, if_pos h1]
          exact ⟨t, by rw [List.cons_append, ht]⟩
        · rw [if_neg h1, if_neg h1]
          by_cases h2 : s = PATH_PARENT
          · rw [if_pos h2, if_pos h2]
            exact ⟨t, by rw [List.cons_append, ht]⟩
          · rw [if_neg h2, if_neg h2]
            exact ⟨t, by rw [List.cons_append, ht]⟩

/-- The body of the tokenizer's output never contains a
`DirectoryMarker`. -/
theorem marker_not_mem_bodyOf : ∀ (l : List String) (first : Bool),
    .DirectoryMarker ∉ bodyOf first l := by
  intro l
  induction l with
  | nil => intro first; simp [bodyOf]
  | cons s rest ih =>
    intro first hmem
    by_cases h0 : s = ""
    · rw [bodyOf, if_pos h0] at hmem
      rcases List.mem_append.mp hmem with h | h
      · cases first <;> simp_all
      · exact ih false h
    · by_cases h1 : s = PATH_CURRENT
      · rw [bodyOf, if_neg h0, if_pos h1] at hmem
        rcases List.mem_cons.mp hmem with h | h
        · exact PathComponent.noConfusion h
        · exact ih false h
      · by_cases h2 : s = PATH_PARENT
        · rw [bodyOf, if_neg h0, if_neg h1, if_pos h2] at hmem
          rcases List.mem_cons.mp hmem with h | h
          · exact PathComponent.noConfusion h
          · exact ih false h
        · rw [bodyOf, if_neg h0, if_neg h1, if_neg h2] at hmem
          rcases List.mem_cons.mp hmem with h | h
          · exact PathComponent.noConfusion h
          · exact ih false h

/-- On parent-free, marker-free input the normalizer is exactly the
`isKept` filter (prepended, reversed, to the accumulator). -/
theorem normalizedAcc_no_parent (l : List PathComponent) : ∀ (acc : List PathComponent),
    .Parent ∉ l → .DirectoryMarker ∉ l →
    normalizedAcc acc l = some ((l.filter PathComponent.isKept).reverse ++ acc) := by
  induction l with
  | nil => intro acc _ _; simp [normalizedAcc]
  | cons c rest ih =>
    intro acc hp hm
    have hp2 : .Parent ∉ rest := fun h => hp (List.mem_cons_of_mem _ h)
    have hm2 : .DirectoryMarker ∉ rest := fun h => hm (List.mem_cons_of_mem _ h)
    cases c with
    | Parent => exact absurd (List.mem_cons_self _ _) hp
    | DirectoryMarker => exact absurd (List.mem_cons_self _ _) hm
    | Current =>
      rw [show normalizedAcc acc (.Current :: rest) = normalizedAcc acc rest from rfl,
        ih acc hp2 hm2, List.filter_cons_of_neg (by decide)]
    | Name s =>
      rw [show normalizedAcc acc (.Name s :: rest) = normalizedAcc (.Name s :: acc) rest from rfl,
        ih _ hp2 hm2, List.filter_cons_of_pos (by rfl), List.reverse_cons, List.append_assoc]
      rfl
    | RootName s =>
      rw [show normalizedAcc acc (.RootName s :: rest)
            = normalizedAcc (.RootName s :: acc) rest from rfl,
        ih _ hp2 hm2, List.filter_cons_of_pos (by rfl), List.reverse_cons, List.append_assoc]
      rfl

/-- Closed form of `normalized` on a body plus optional trailing marker:
the `isKept` filter of the body, with the marker reattached, or the
`Current`-based degenerate forms when the filter is empty. -/
theorem normalized_body_marker (body : List PathComponent) (mk : Bool)
    (hp : .Parent ∉ body) (hm : .DirectoryMarker ∉ body) :
    normalized (body ++ (if mk then [.DirectoryMarker] else [])) =
      some (if (body.filter PathComponent.isKept).isEmpty then
              (if mk then [.Current, .DirectoryMarker] else [.Current])
            else
              body.filter PathComponent.isKept ++ (if mk then [.DirectoryMarker] else [])) := by
  cases mk with
  | false =>
    simp only [Bool.false_eq_true, if_false, List.append_nil]
    rw [normalized, normalizedAcc_no_parent body [] hp hm]
    cases hke : body.filter PathComponent.isKept with
    | nil => simp
    | cons k0 krest => simp
  | true =>
    simp only [if_true]
    rw [normalized, normalizedAcc_append body [.DirectoryMarker] [],
      normalizedAcc_no_parent body [] hp hm]
    simp only [Option.some_bind, List.append_nil]
    rw [show normalizedAcc (body.filter PathComponent.isKept).reverse [.DirectoryMarker]
          = some (.DirectoryMarker ::
              (if (body.filter PathComponent.isKept).reverse.isEmpty then [.Current]
               else (body.filter PathComponent.isKept).reverse)) from rfl]
    cases hke : body.filter PathComponent.isKept with
    | nil => simp
    | cons k0 krest => simp

/-- Members of the `isKept` filter are `Name`s or `RootName`s, hence
neither `Current` nor `DirectoryMarker`. -/
theorem mem_filter_isKept (x : PathComponent) (l : List PathComponent)
    (h : x ∈ l.filter PathComponent.isKept) :
    x ≠ .Current ∧ x ≠ .DirectoryMarker := by
  have hx := List.of_mem_filter h
  cases x <;> simp_all [PathComponent.isKept]

/-- A list avoiding `Current` cannot have it as its head. -/
theorem head?_ne_current (l : List PathComponent) (h : .Current ∉ l) :
    l.head? ≠ some .Current := by
  cases l with
  | nil => simp
  | cons a r =>
    intro hh
    simp only [List.head?_cons, Option.some.injEq] at hh
    exact h (hh ▸ List.mem_cons_self a r)

/-- In prefix mode the empty remaining path is accepted at any node. -/
theorem goMatch_true_nil (n : PathMatchNode) : goMatch n true [] = true := by
  simp [goMatch]

/-- In prefix mode a bare `DirectoryMarker` remainder is accepted at any
node. -/
theorem goMatch_true_marker (n : PathMatchNode) :
    goMatch n true [.DirectoryMarker] = true := by
  simp [goMatch]

/-- Truncation lemma for the trie matcher: if a node full-matches
`xs ++ ys` and `xs`, `ys` avoid `Current`, then the node prefix-matches
`xs`, and also `xs ++ [DirectoryMarker]` provided `xs` avoids the
marker.  This is the heart of prefix-over-truncation monotonicity: the
full match walks the trie through all of `xs ++ ys`, so `xs` alone
reaches a live node, and prefix mode accepts at any reachable node. -/
theorem goMatch_truncation : ∀ (xs : List PathComponent) (n : PathMatchNode)
    (ys : List PathComponent),
    goMatch n false (xs ++ ys) = true →
    .Current ∉ xs → .Current ∉ ys →
    goMatch n true xs = true ∧
      (.DirectoryMarker ∉ xs → goMatch n true (xs ++ [.DirectoryMarker]) = true) := by
  intro xs
  induction xs with
  | nil =>
    intro n ys _ _ _
    exact ⟨goMatch_true_nil n, fun _ => goMatch_true_marker n⟩
  | cons c xs2 ih =>
    intro n ys hfull hcx hcy
    have hcx2 : .Current ∉ xs2 := fun hx => hcx (List.mem_cons_of_mem _ hx)
    have hcc : c ≠ .Current := fun hh => hcx (hh ▸ List.mem_cons_self c xs2)
    rw [List.cons_append, goMatch_cons_false, Bool.or_eq_true, Bool.or_eq_true] at hfull
    have hhead : xs2.head? ≠ some .Current := head?_ne_current xs2 hcx2
    have hheadm : (xs2 ++ [PathComponent.DirectoryMarker]).head? ≠ some PathComponent.Current := by
      apply head?_ne_current
      intro hmem
      rcases List.mem_append.mp hmem with h | h
      · exact hcx2 h
      · simp at h
    rcases hfull with (hA | hB) | hC
    · rw [Bool.and_eq_true, Bool.and_eq_true] at hA
      obtain ⟨⟨hce, hemp⟩, hcm⟩ := hA
      have hxy : xs2 ++ ys = [] := by simpa using hemp
      have hxs2 : xs2 = [] := (List.append_eq_nil.mp hxy).1
      have hcm2 : c = .DirectoryMarker := by simpa using hcm
      subst hxs2; subst hcm2
      refine ⟨goMatch_true_marker n, fun hmx => ?_⟩
      exact absurd (List.mem_cons_self _ _) hmx
    · cases hlk : lookupLit n.literals c with
      | none => rw [hlk] at hB; simp at hB
      | some child =>
        rw [hlk] at hB
        obtain ⟨ih1, ih2⟩ := ih child ys hB hcx2 hcy
        constructor
        · rw [goMatch_cons_true n c xs2 hhead]
          simp only [hlk, ih1]
          simp
        · intro hmx
          have hmx2 : .DirectoryMarker ∉ xs2 := fun hx => hmx (List.mem_cons_of_mem _ hx)
          rw [List.cons_append, goMatch_cons_true n c (xs2 ++ [PathComponent.DirectoryMarker]) hheadm]
          simp only [hlk, ih2 hmx2]
          simp
    · rw [List.any_eq_true] at hC
      obtain ⟨q, hq, hpred⟩ := hC
      have hpred2 : (wildTest c q.1 && goMatch q.2 false (xs2 ++ ys)) = true := hpred
      rw [Bool.and_eq_true] at hpred2
      obtain ⟨hname, hrec⟩ := hpred2
      obtain ⟨ih1, ih2⟩ := ih q.2 ys hrec hcx2 hcy
      constructor
      · rw [goMatch_cons_true n c xs2 hhead]
        rw [Bool.or_eq_true]
        refine Or.inr (List.any_eq_true.mpr ⟨q, hq, ?_⟩)
        show (wildTest c q.1 && goMatch q.2 true xs2) = true
        rw [Bool.and_eq_true]
        exact ⟨hname, ih1⟩
      · intro hmx
        have hmx2 : .DirectoryMarker ∉ xs2 := fun hx => hmx (List.mem_cons_of_mem _ hx)
        rw [List.cons_append, goMatch_cons_true n c (xs2 ++ [PathComponent.DirectoryMarker]) hheadm]
        rw [Bool.or_eq_true]
        refine Or.inr (List.any_eq_true.mpr ⟨q, hq, ?_⟩)
        show (wildTest c q.1 && goMatch q.2 true (xs2 ++ [PathComponent.DirectoryMarker])) = true
        rw [Bool.and_eq_true]
        exact ⟨hname, ih2 hmx2⟩

/-- C5 (amended): prefix matching is monotonic over component-level
truncation for paths without `..` components: for every compiled matcher
`m` and path string `full` whose components contain no `..`, if
`m.matches full` is true then `m.matches_prefix p` is true for every
path `p` whose component split is an initial segment (`take k`) of
`full`'s component split. -/
theorem C5_truncation_monotonic (m : PathMatch) (full p : String) (k : Nat)
    (hsplit : rustSplit p m.separator = (rustSplit full m.separator).take k)
    (hnp : PathComponent.Parent ∉ stringComponents full m.separator)
    (hm : PathMatch.matches m full = true) :
    matches_prefix m p = true := by
  have hcompF : stringComponents full m.separator
      = bodyOf true (rustSplit full m.separator)
        ++ (if endsDir true false (rustSplit full m.separator) then [.DirectoryMarker] else []) := by
    rw [stringComponents]
    exact tokenizeSlices_eq_body _ true false
  have hbodyP : PathComponent.Parent ∉ bodyOf true (rustSplit full m.separator) := by
    intro hmem
    apply hnp
    rw [hcompF]
    exact List.mem_append_left _ hmem
  have hbodyM : PathComponent.DirectoryMarker ∉ bodyOf true (rustSplit full m.separator) :=
    marker_not_mem_bodyOf _ true
  have hFnorm := normalized_body_marker (bodyOf true (rustSplit full m.separator))
    (endsDir true false (rustSplit full m.separator)) hbodyP hbodyM
  have hprefixBody := bodyOf_take_isPrefix (rustSplit full m.separator) k true
  have hbodyP2 : PathComponent.Parent ∉ bodyOf true ((rustSplit full m.separator).take k) :=
    fun hmem => hbodyP (hprefixBody.sublist.subset hmem)
  have hbodyM2 := marker_not_mem_bodyOf ((rustSplit full m.separator).take k) true
  have hTnorm := normalized_body_marker (bodyOf true ((rustSplit full m.separator).take k))
    (endsDir true false ((rustSplit full m.separator).take k)) hbodyP2 hbodyM2
  have hkept : (bodyOf true ((rustSplit full m.separator).take k)).filter PathComponent.isKept
      <+: (bodyOf true (rustSplit full m.separator)).filter PathComponent.isKept :=
    hprefixBody.filter _
  have hcompP : stringComponents p m.separator
      = bodyOf true ((rustSplit full m.separator).take k)
        ++ (if endsDir true false ((rustSplit full m.separator).take k)
            then [.DirectoryMarker] else []) := by
    rw [stringComponents, hsplit]
    exact tokenizeSlices_eq_body _ true false
  show matches_common m p true = true
  unfold matches_common
  rw [hcompP, hTnorm]
  cases hkp : (bodyOf true ((rustSplit full m.separator).take k)).filter PathComponent.isKept with
  | nil =>
    show m.match_tree.matches
      (if ([] : List PathComponent).isEmpty then
        (if endsDir true false ((rustSplit full m.separator).take k)
         then [.Current, .DirectoryMarker] else [.Current])
       else [] ++ (if endsDir true false ((rustSplit full m.separator).take k)
         then [.DirectoryMarker] else [])) true = true
    cases hep : endsDir true false ((rustSplit full m.separator).take k) with
    | true =>
      show m.match_tree.matches [.Current, .DirectoryMarker] true = true
      rw [PathMatchNode.matches_true_current]
      exact goMatch_true_marker _
    | false =>
      show m.match_tree.matches [.Current] true = true
      rw [PathMatchNode.matches_true_current]
      exact goMatch_true_nil _
  | cons c0 kp2 =>
    rw [hkp] at hkept
    obtain ⟨ys0, hys0⟩ := hkept
    have hc0kept : ∀ x ∈ (c0 :: kp2) ++ ys0,
        x ≠ PathComponent.Current ∧ x ≠ PathComponent.DirectoryMarker := by
      intro x hx
      rw [hys0] at hx
      exact mem_filter_isKept x _ hx
    have hcur1 : PathComponent.Current ∉ (c0 :: kp2) := by
      intro hmem
      exact (hc0kept _ (List.mem_append_left _ hmem)).1 rfl
    have hmk1 : PathComponent.DirectoryMarker ∉ (c0 :: kp2) := by
      intro hmem
      exact (hc0kept _ (List.mem_append_left _ hmem)).2 rfl
    have hcur2 : PathComponent.Current ∉
        ys0 ++ (if endsDir true false (rustSplit full m.separator)
                then [PathComponent.DirectoryMarker] else []) := by
      intro hmem
      rcases List.mem_append.mp hmem with h | h
      · exact (hc0kept _ (List.mem_append_right _ h)).1 rfl
      · cases endsDir true false (rustSplit full m.separator) <;> simp_all
    -- extract the full-mode traversal from `hm`
    unfold PathMatch.matches matches_common at hm
    rw [hcompF, hFnorm] at hm
    have hkfne : ((bodyOf true (rustSplit full m.separator)).filter
        PathComponent.isKept).isEmpty = false := by
      rw [← hys0]
      rfl
    rw [hkfne] at hm
    have hm2 : m.match_tree.matches
        ((bodyOf true (rustSplit full m.separator)).filter PathComponent.isKept
          ++ (if endsDir true false (rustSplit full m.separator)
              then [PathComponent.DirectoryMarker] else [])) false = true := by
      simpa using hm
    rw [PathMatchNode.matches_false_eq, ← hys0, List.append_assoc] at hm2
    obtain ⟨h1, h2⟩ := goMatch_truncation (c0 :: kp2) m.match_tree _ hm2 hcur1 hcur2
    have hc0 : c0 ≠ PathComponent.Current := by
      intro hh
      exact hcur1 (hh ▸ List.mem_cons_self c0 kp2)
    show m.match_tree.matches
      (if ((c0 :: kp2) : List PathComponent).isEmpty then
        (if endsDir true false ((rustSplit full m.separator).take k)
         then [.Current, .DirectoryMarker] else [.Current])
       else (c0 :: kp2) ++ (if endsDir true false ((rustSplit full m.separator).take k)
         then [.DirectoryMarker] else [])) true = true
    cases hep : endsDir true false ((rustSplit full m.separator).take k) with
    | true =>
      show m.match_tree.matches ((c0 :: kp2) ++ [PathComponent.DirectoryMarker]) true = true
      rw [List.cons_append,
        PathMatchNode.matches_true_eq _ _ _ hc0, ← List.cons_append]
      exact h2 hmk1
    | false =>
      show m.match_tree.matches ((c0 :: kp2) ++ []) true = true
      rw [List.append_nil, PathMatchNode.matches_true_eq _ _ _ hc0]
      exact h1

/-- Closed witness for `C5_truncation_monotonic`: the matcher for
`hello/there/friend` (separator `/`) full-matches `hello/there/friend`,
and the theorem yields `matches_prefix "hello/there"` for the 2-component
truncation. -/
theorem C5_witness :
    PathMatch.matches (fp! "hello/there/friend" "/") "hello/there/friend" = true
    ∧ matches_prefix (fp! "hello/there/friend" "/") "hello/there" = true :=
  ⟨by decide,
   C5_truncation_monotonic (fp! "hello/there/friend" "/") "hello/there/friend"
     "hello/there" 2 (by decide) (by decide) (by decide)⟩

/-- C5 counterexample: for the matcher compiled from pattern `b` with
separator `/`, the path `a/../b` matches in full (its `..` cancels the
`a`), and `a` is the component-level truncation of `a/../b` to its first
component, yet `matches_prefix "a"` is false — so prefix matching is not
monotonic over component-level truncation when the path contains `..`. -/
theorem C5_counterexample :
    (from_pattern "b" "/").isOk = true
    ∧ PathMatch.matches (fp! "b" "/") "a/../b" = true
    ∧ rustSplit "a" "/" = (rustSplit "a/../b" "/").take 1
    ∧ matches_prefix (fp! "b" "/") "a" = false := by
  decide

end SimplePathMatch
